import Mathlib

/-!
Verification of the DER recipe engine of the prototest repository
(src/recipe/core.rs, src/recipe/der.rs, src/old_recipe/der.rs).

Octets are modelled as natural numbers below 256, fragments as lists of
octets.  Machine integers are modelled as Nat or Int with explicit
reductions modulo powers of two where the source relies on fixed widths.
Rust functions that can panic are modelled with Option, where none stands
for the panic.  usize is taken to be 64 bits wide.
-/

set_option maxRecDepth 8000

namespace Prototest

/-- Big-endian byte representation of width w, modelling the Rust
to_be_bytes methods: byte i holds bits 8*(w-1-i) .. 8*(w-1-i)+7. -/
def beBytes (w n : Nat) : List Nat :=
  (List.range w).map (fun i => n >>> (8 * (w - 1 - i)) &&& 255)

/-- Two's-complement value of a signed integer of width w octets,
as used by the to_be_bytes methods on i16/i32/i64/i128/isize. -/
def toTwos (w : Nat) (n : Int) : Nat :=
  (n % ((2 ^ (8 * w) : Nat) : Int)).toNat

/-- The number of significant bits of n, i.e. usize::BITS minus
n.leading_zeros() for n below 2 to the 64. -/
def lenBits (n : Nat) : Nat :=
  (List.range 64).countP (fun i => 2 ^ i ≤ n)

/-- Translation of Value::assemble_length in src/recipe/der.rs.
For length below 128 one short-form octet; otherwise the long form with
octets = ((usize::BITS - length.leading_zeros()) >> 3) + 1 subsequent
octets, taken from the tail of the 8-octet big-endian representation.
The slice index usize_octets - octets is total here via truncated Nat
subtraction; in Rust it stays in range for every reachable length, since
a Vec never exceeds isize::MAX bytes. -/
def assemble_length (length : Nat) : List Nat :=
  if length < 128 then
    [length]
  else
    let octets := (lenBits length >>> 3) + 1
    (octets ||| 128) :: (beBytes 8 length).drop (8 - octets)

/-- Translation of assemble_unsigned_slice in src/recipe/der.rs: skip
leading zero octets, then push one zero octet when the remaining head
has its top bit set (the unwrap_or(0xFF) default applies only to the
slice that became empty, first equation). -/
def assemble_unsigned_slice : List Nat → List Nat
  | [] => [0]
  | 0 :: rest => assemble_unsigned_slice rest
  | (m + 1) :: rest =>
      (if (m + 1) &&& 128 ≠ 0 then [0] else []) ++ (m + 1) :: rest

/-- Translation of assemble_signed_slice in src/recipe/der.rs: with the
top bit of the first octet clear fall back to the unsigned path,
otherwise strip leading 0xFF octets and push a single 0xFF octet when
nothing remains. -/
def assemble_signed_slice (slice : List Nat) : List Nat :=
  if slice.headD 255 &&& 128 = 0 then
    assemble_unsigned_slice slice
  else
    let s := slice.dropWhile (· == 255)
    if s.isEmpty then [255] else s

/-- The k base-128 digits that the digit loop of assemble_base_7 stores:
digit i (big-endian) is (number >> (7 * (k - 1 - i))) & 0x7F. -/
def sevenBitDigits (k number : Nat) : List Nat :=
  (List.range k).map (fun i => number >>> (7 * (k - 1 - i)) &&& 127)

/-- Translation of assemble_base_7 in src/recipe/der.rs: 19 base-128
digits, leading zero digits among the first 18 skipped, all emitted
digits but the last carrying the 0x80 continuation bit; the final digit
(index 18, the number shifted by zero) is emitted bare. -/
def assemble_base_7 (number : Nat) : List Nat :=
  let digits := sevenBitDigits 19 number
  ((digits.take 18).dropWhile (· == 0)).map (· ||| 128) ++ [number &&& 127]

/-- A conforming base-128 decoder: each octet contributes its low seven
payload bits, big-endian. -/
def decodeBase7 (l : List Nat) : Nat :=
  l.foldl (fun acc b => acc * 128 + b % 128) 0

/-- The class portion of a DER tag (enum Class in src/recipe/der.rs). -/
inductive ClassT where
  | universal
  | application
  | context
  | priv
deriving DecidableEq, Repr

/-- The class bit pattern of the first identifier octet. -/
def classBits : ClassT → Nat
  | .universal => 0
  | .application => 0x40
  | .context => 0x80
  | .priv => 0xC0

/-- Translation of Tag::assemble in src/recipe/der.rs: class bits, the
0x20 constructed flag, and either the number in the low five bits or
the all-ones pattern followed by the base-128 encoding. -/
def tagAssemble (cls : ClassT) (number : Nat) (constructed : Bool) : List Nat :=
  let first := classBits cls ||| (if constructed then 0x20 else 0)
  if number < 31 then
    [first ||| number]
  else
    (first ||| 31) :: assemble_base_7 number

/-- A UTC timestamp, modelling chrono DateTime of Utc as far as the DER
layer inspects it. -/
structure TimeT where
  year : Nat
  month : Nat
  day : Nat
  hour : Nat
  minute : Nat
  second : Nat
deriving DecidableEq, Repr

/-- Two-digit zero-padded decimal, as ASCII codes. -/
def pad2 (n : Nat) : List Nat :=
  [48 + n / 10 % 10, 48 + n % 10]

/-- Four-digit zero-padded decimal, as ASCII codes. -/
def pad4 (n : Nat) : List Nat :=
  [48 + n / 1000 % 10, 48 + n / 100 % 10, 48 + n / 10 % 10, 48 + n % 10]

/-- The chrono format string for UTCTime content: two-digit year, then
month, day, hour, minute, second and a literal Z. -/
def utcTimeContent (t : TimeT) : List Nat :=
  pad2 (t.year % 100) ++ pad2 t.month ++ pad2 t.day
    ++ pad2 t.hour ++ pad2 t.minute ++ pad2 t.second ++ [90]

/-- The chrono format string for GeneralizedTime content: four-digit
year, then month, day, hour, minute, second and a literal Z. -/
def generalizedTimeContent (t : TimeT) : List Nat :=
  pad4 t.year ++ pad2 t.month ++ pad2 t.day
    ++ pad2 t.hour ++ pad2 t.minute ++ pad2 t.second ++ [90]

/-- Rust char::is_ascii_whitespace: space, horizontal tab, line feed,
form feed, carriage return. -/
def isAsciiWhitespace (c : Char) : Bool :=
  c == ' ' || c == '\t' || c == '\n' || c == Char.ofNat 12 || c == '\r'

/-- Rust char::to_digit(16). -/
def toDigit16 (c : Char) : Option Nat :=
  if '0' ≤ c ∧ c ≤ '9' then some (c.toNat - 48)
  else if 'a' ≤ c ∧ c ≤ 'f' then some (c.toNat - 97 + 10)
  else if 'A' ≤ c ∧ c ≤ 'F' then some (c.toNat - 65 + 10)
  else none

/-- Rust char::is_digit(16). -/
def isDigit16 (c : Char) : Bool :=
  (toDigit16 c).isSome

/-- The counting loop of Hex::check in src/recipe/core.rs: whitespace is
skipped, hex digits are counted, any other character is the fatal error
(none). -/
def hexCount : List Char → Option Nat
  | [] => some 0
  | ch :: rest =>
      if isAsciiWhitespace ch then hexCount rest
      else if isDigit16 ch then (hexCount rest).map (· + 1)
      else none

/-- Hex::check succeeds exactly when every character is whitespace or a
hex digit and the digit count is even. -/
def hexCheck (s : List Char) : Bool :=
  match hexCount s with
  | none => false
  | some count => count % 2 == 0

/-- The pairing loop of the Hex Recipe impl: consecutive digit values
become (hi << 4) | lo; a trailing unpaired digit is the unwrap panic
(none), unreachable after hexCheck. -/
def pairBytes : List Nat → Option (List Nat)
  | [] => some []
  | [_] => none
  | a :: b :: rest => (pairBytes rest).map ((a <<< 4 ||| b) :: ·)

/-- Assembly of a checked hex literal: filter the digit values out of
the string and pair them up. -/
def hexAssemble (s : List Char) : Option (List Nat) :=
  pairBytes (s.filterMap toDigit16)

/-- The integer content types, one constructor per family of
IntegerContent impls in src/recipe/der.rs: the special-cased u8, the
unsigned widths routed through to_be_bytes, the special-cased i8, the
signed widths routed through to_be_bytes, and raw byte slices. -/
inductive IntContentT where
  | u8c (n : Nat)
  | unsignedBE (w : Nat) (n : Nat)
  | i8c (n : Int)
  | signedBE (w : Nat) (n : Int)
  | sliceC (bs : List Nat)
deriving DecidableEq, Repr

/-- IntegerContent::assemble_integer for each family. -/
def intContent : IntContentT → List Nat
  | .u8c n => (if 127 < n then [0] else []) ++ [n]
  | .unsignedBE w n => assemble_unsigned_slice (beBytes w n)
  | .i8c n => [toTwos 1 n]
  | .signedBE w n => assemble_signed_slice (beBytes w (toTwos w n))
  | .sliceC bs => assemble_signed_slice bs

/-- Oid::assemble_content in src/recipe/der.rs: the first two arcs are
merged as arc0 * 40 + arc1 (u128 arithmetic, hence the reduction), the
rest follow one by one; fewer than two arcs is the index panic (none). -/
def oidContent : List Nat → Option (List Nat)
  | a0 :: a1 :: rest =>
      some (assemble_base_7 ((a0 * 40 + a1) % 2 ^ 128)
        ++ (rest.map (fun a => assemble_base_7 a)).flatten)
  | _ => none

/-- How a DerContent argument of value() is built: the constructed()
wrapper, the simple() wrapper, or one of the der structs used directly
(their own DerContent impl decides the constructed flag). -/
inductive ContentMode where
  | constructedM
  | simpleM
  | derM
deriving DecidableEq, Repr

/-- The recipe tree: one constructor per struct of src/recipe/core.rs
and src/recipe/der.rs that implements Recipe (the exec escape hatch is
excluded, and tuples beyond pairs are nested pairs). -/
inductive RecipeT where
  | literalR (bs : List Nat)
  | hexR (s : List Char)
  | emptyR
  | pair2 (a b : RecipeT)
  | valueR (cls : ClassT) (num : Nat) (mode : ContentMode) (content : RecipeT)
  | stringValueR (cls : ClassT) (num : Nat) (content : RecipeT)
  | booleanR (octet : Nat)
  | integerR (c : IntContentT)
  | integerSliceR (bs : List Nat)
  | nullR
  | oidR (arcs : List Nat)
  | utcTimeR (t : TimeT)
  | generalizedTimeR (t : TimeT)
deriving DecidableEq, Repr

/-- DerContent::is_constructed of the der structs: true for Value,
false for Boolean, Integer, IntegerSlice, Null, Oid, StringValue,
UtcTime and GeneralizedTime (the remaining constructors never implement
DerContent in the source). -/
def isConstructedDer : RecipeT → Bool
  | .valueR _ _ _ _ => true
  | _ => false

/-- The constructed flag a DerContent argument reports. -/
def contentConstructed : ContentMode → RecipeT → Bool
  | .constructedM, _ => true
  | .simpleM, _ => false
  | .derM, r => isConstructedDer r

/-- Value::assemble in src/recipe/der.rs: materialize the content into a
fresh fragment, then append tag octets, length octets and the content. -/
def valueWrap (cls : ClassT) (num : Nat) (cons : Bool)
    (content : Option (List Nat)) (target : List Nat) : Option (List Nat) :=
  content.map (fun c =>
    target ++ tagAssemble cls num cons ++ assemble_length c.length ++ c)

/-- Assembly.  asmb false r t is Recipe::assemble of r appending to
target t; asmb true r t is DerContent::assemble_content of r (they
differ only for StringValue, whose content impl emits the inner bytes
without the TLV frame, and for the primitive structs, whose content
impl emits the bare content octets). -/
def asmb : Bool → RecipeT → List Nat → Option (List Nat)
  | _, .literalR bs, t => some (t ++ bs)
  | _, .hexR s, t => (hexAssemble s).map (t ++ ·)
  | _, .emptyR, t => some t
  | _, .pair2 a b, t => (asmb false a t).bind (fun t1 => asmb false b t1)
  | _, .valueR cls num mode c, t =>
      valueWrap cls num (contentConstructed mode c)
        (match mode with
          | .derM => asmb true c []
          | _ => asmb false c []) t
  | true, .stringValueR _ _ r, t => asmb false r t
  | false, .stringValueR cls num r, t =>
      valueWrap cls num false (asmb false r []) t
  | true, .booleanR oct, t => some (t ++ [oct])
  | false, .booleanR oct, t =>
      valueWrap .universal 1 false (some [oct]) t
  | true, .integerR c, t => some (t ++ intContent c)
  | false, .integerR c, t =>
      valueWrap .universal 2 false (some (intContent c)) t
  | true, .integerSliceR bs, t => some (t ++ assemble_signed_slice bs)
  | false, .integerSliceR bs, t =>
      valueWrap .universal 2 false (some (assemble_signed_slice bs)) t
  | true, .nullR, t => some t
  | false, .nullR, t =>
      valueWrap .universal 5 false (some []) t
  | true, .oidR arcs, t => (oidContent arcs).map (t ++ ·)
  | false, .oidR arcs, t =>
      valueWrap .universal 6 false (oidContent arcs) t
  | true, .utcTimeR tv, t => some (t ++ utcTimeContent tv)
  | false, .utcTimeR tv, t =>
      valueWrap .universal 23 false (some (utcTimeContent tv)) t
  | true, .generalizedTimeR tv, t => some (t ++ generalizedTimeContent tv)
  | false, .generalizedTimeR tv, t =>
      valueWrap .universal 23 false (some (generalizedTimeContent tv)) t

/-- Recipe::to_fragment: assemble into a fresh fragment. -/
def to_fragment (r : RecipeT) : Option (List Nat) :=
  asmb false r []

/-- The boolean constructor: one content octet, 0xFF or 0x00. -/
def boolean (x : Bool) : RecipeT :=
  .booleanR (if x then 255 else 0)

/-- The integer constructor. -/
def integer (c : IntContentT) : RecipeT :=
  .integerR c

/-- The sequence constructor of src/recipe/der.rs: universal 16 around
constructed content. -/
def sequence (items : RecipeT) : RecipeT :=
  .valueR .universal 16 .constructedM items

/-- The bitstring constructor of src/recipe/der.rs: a StringValue with
tag universal 3 whose content runs sequence((literal([unused]),
content)) — the der sequence combinator, since the plain concatenation
combinator of the core module is not in scope there. -/
def bitstring (unused : Nat) (content : RecipeT) : RecipeT :=
  .stringValueR .universal 3 (sequence (.pair2 (.literalR [unused]) content))

/-- The octetstring constructor: StringValue with tag universal 4. -/
def octetstring (content : RecipeT) : RecipeT :=
  .stringValueR .universal 4 content

/-- The oid constructor. -/
def oid (arcs : List Nat) : RecipeT :=
  .oidR arcs

/-- The utc_time constructor. -/
def utc_time (t : TimeT) : RecipeT :=
  .utcTimeR t

/-- The generalized_time constructor. -/
def generalized_time (t : TimeT) : RecipeT :=
  .generalizedTimeR t

/-- A fully assembled old_recipe value: tag, length, content. -/
def valueBytes (cls : ClassT) (num : Nat) (cons : Bool)
    (content : List Nat) : List Nat :=
  tagAssemble cls num cons ++ assemble_length content.length ++ content

/-- utc_time of src/old_recipe/der.rs: universal 23, primitive. -/
def old_utc_time (t : TimeT) : List Nat :=
  valueBytes .universal 23 false (utcTimeContent t)

/-- generalized_time of src/old_recipe/der.rs: universal 24, primitive. -/
def old_generalized_time (t : TimeT) : List Nat :=
  valueBytes .universal 24 false (generalizedTimeContent t)

/-- x509_time of src/old_recipe/der.rs: utc_time when the year is at
least 2050, generalized_time otherwise. -/
def x509_time (t : TimeT) : List Nat :=
  if 2050 ≤ t.year then old_utc_time t else old_generalized_time t

/-- Sanity: the der_boolean unit test vectors of src/recipe/der.rs. -/
theorem boolean_test_vectors :
    to_fragment (boolean true) = some [0x01, 0x01, 0xFF]
    ∧ to_fragment (boolean false) = some [0x01, 0x01, 0x00]
    ∧ to_fragment (.valueR .context 0 .derM (boolean true))
        = some [0x80, 0x01, 0xFF] := by
  decide

/-- Sanity: the der_integer unit test vectors of src/recipe/der.rs. -/
theorem integer_test_vectors :
    to_fragment (integer (.u8c 0)) = some [0x02, 0x01, 0x00]
    ∧ to_fragment (integer (.unsignedBE 4 0)) = some [0x02, 0x01, 0x00]
    ∧ to_fragment (integer (.i8c (-1))) = some [0x02, 0x01, 0xFF]
    ∧ to_fragment (integer (.signedBE 4 (-1))) = some [0x02, 0x01, 0xFF]
    ∧ to_fragment (integer (.i8c (-2))) = some [0x02, 0x01, 0xFE]
    ∧ to_fragment (integer (.signedBE 4 (-2))) = some [0x02, 0x01, 0xFE] := by
  decide

/-- C1 sanity: length 127 uses the short form. -/
theorem length_127 : assemble_length 127 = [127] := by decide

/-- C1.  The claim asserts the emitted length field is always minimal
definite form, with L=128 giving 81 80, L=255 giving 81 FF and L=65535
giving 82 FF FF.  Evaluating the code: the octet count
((BITS - leading_zeros) >> 3) + 1 overshoots by one whenever the bit
length of L is a multiple of eight, so 128, 255 and 65535 each receive
an extra leading zero octet, while 127, 256 and 65536 match the claim. -/
theorem c1_length_boundaries :
    assemble_length 128 = [0x82, 0x00, 0x80]
    ∧ assemble_length 255 = [0x82, 0x00, 0xFF]
    ∧ assemble_length 256 = [0x82, 0x01, 0x00]
    ∧ assemble_length 65535 = [0x83, 0x00, 0xFF, 0xFF]
    ∧ assemble_length 65536 = [0x83, 0x01, 0x00, 0x00]
    ∧ assemble_length 127 = [0x7F] := by
  decide

/-- C2.  The claim asserts the signed integer codec strips leading 0xFF
octets only while the next octet keeps its sign bit set.  Evaluating the
code at the two's-complement bytes of -256i16, namely FF 00: the strip
loop removes the FF unconditionally, leaving the content 00 — the
encoding of zero, a sign flip the claim rules out. -/
theorem c2_signed_minus256 :
    beBytes 2 (toTwos 2 (-256)) = [0xFF, 0x00]
    ∧ assemble_signed_slice [0xFF, 0x00] = [0x00] := by
  decide

/-- C3.  The claim asserts bitstring(u, c) emits tag 03, a length field
and content equal to the u octet followed verbatim by the bytes of c.
Evaluating the code at unused = 9 and empty content: the call
sequence((literal([unused]), content)) resolves to the der sequence
combinator, so the content is wrapped in an extra universal-16 TLV and
the emitted bytes are 03 03 30 01 09 instead of 03 01 09.  No error is
raised, as the claim says. -/
theorem c3_bitstring_eval :
    to_fragment (bitstring 9 .emptyR) = some [0x03, 0x03, 0x30, 0x01, 0x09]
    ∧ to_fragment (bitstring 9 .emptyR) ≠ some [0x03, 0x01, 0x09] := by
  decide

/-- C4.  The claim asserts generalized_time emits tag universal 24 and
utc_time tag universal 23, with four- and two-digit years.  Evaluating
the code at 2026-10-12 00:00:00: the Recipe impl of GeneralizedTime
calls universal(23, self), so both recipes emit identifier octet 0x17;
the content digits (four-digit year 2026 vs two-digit year 26) match
the claim. -/
theorem c4_generalized_tag :
    to_fragment (generalized_time ⟨2026, 10, 12, 0, 0, 0⟩)
      = some [0x17, 15, 50, 48, 50, 54, 49, 48, 49, 50,
              48, 48, 48, 48, 48, 48, 90]
    ∧ to_fragment (utc_time ⟨2026, 10, 12, 0, 0, 0⟩)
      = some [0x17, 13, 50, 54, 49, 48, 49, 50,
              48, 48, 48, 48, 48, 48, 90] := by
  decide

/-- C5.  The claim asserts x509_time selects GeneralizedTime for years
at least 2050 and UTCTime below.  Evaluating the code at 2050-01-01
00:00:00 and 2026-10-12 00:00:00: the condition is inverted, year 2050
yields the UTCTime encoding (tag 0x17, two-digit year 50) and year 2026
yields the GeneralizedTime encoding (tag 0x18, four-digit year 2026). -/
theorem c5_x509_inverted :
    x509_time ⟨2050, 1, 1, 0, 0, 0⟩
      = [0x17, 13, 53, 48, 48, 49, 48, 49, 48, 48, 48, 48, 48, 48, 90]
    ∧ x509_time ⟨2026, 10, 12, 0, 0, 0⟩
      = [0x18, 15, 50, 48, 50, 54, 49, 48, 49, 50,
         48, 48, 48, 48, 48, 48, 90] := by
  decide

/-- Helper for C6: for octets, a set top bit is the same as being at
least 128. -/
theorem and128_iff : ∀ b < 256, (b &&& 128 ≠ 0 ↔ 128 ≤ b) := by
  decide

/-- C6.  The unsigned integer codec strips all leading zero octets,
prepends one zero octet exactly when the first remaining octet has its
top bit set, and emits a single zero octet for the value zero.  This
holds for the slice routine serving u16/u32/u64/u128/usize and raw
slices, and separately for the special-cased IntegerContent impl for
u8 over every one of its 256 inputs (its single big-endian octet taking
the place of the slice); in particular integer(0u8) assembles to
02 01 00. -/
theorem c6_unsigned_strip (bs : List Nat) (hb : ∀ b ∈ bs, b < 256) :
    (assemble_unsigned_slice bs =
      if bs.dropWhile (· == 0) = [] then [0]
      else if 128 ≤ (bs.dropWhile (· == 0)).headD 0 then
        0 :: bs.dropWhile (· == 0)
      else bs.dropWhile (· == 0))
    ∧ (∀ n < 256, intContent (.u8c n) =
        if (beBytes 1 n).dropWhile (· == 0) = [] then [0]
        else if 128 ≤ ((beBytes 1 n).dropWhile (· == 0)).headD 0 then
          0 :: (beBytes 1 n).dropWhile (· == 0)
        else (beBytes 1 n).dropWhile (· == 0))
    ∧ to_fragment (integer (.u8c 0)) = some [0x02, 0x01, 0x00] := by
  refine ⟨?_, by decide, by decide⟩
  induction bs with
  | nil => simp [assemble_unsigned_slice]
  | cons h t ih =>
      match h with
      | 0 =>
          simpa [assemble_unsigned_slice] using
            ih (fun b hbmem => hb b (List.mem_cons_of_mem 0 hbmem))
      | m + 1 =>
          have hlt : m + 1 < 256 := hb (m + 1) (List.mem_cons_self (m + 1) t)
          have hd : ((m + 1 : Nat) == 0) = false := by simp
          rw [assemble_unsigned_slice, List.dropWhile_cons_of_neg (by simp)]
          by_cases hbit : (m + 1) &&& 128 ≠ 0
          · rw [if_pos hbit, if_neg (by simp),
              if_pos (by simpa using ((and128_iff (m + 1) hlt).mp hbit))]
            rfl
          · rw [if_neg hbit, if_neg (by simp),
              if_neg (by simpa using
                fun hge => hbit ((and128_iff (m + 1) hlt).mpr hge))]
            rfl

/-- Witness for C6 at the slice FF 01: the leading octet keeps its top
bit, so a zero octet is prepended. -/
theorem c6_unsigned_strip_witness :
    (∀ b ∈ ([255, 1] : List Nat), b < 256)
    ∧ ((assemble_unsigned_slice [255, 1] =
        if ([255, 1] : List Nat).dropWhile (· == 0) = [] then [0]
        else if 128 ≤ (([255, 1] : List Nat).dropWhile (· == 0)).headD 0 then
          0 :: ([255, 1] : List Nat).dropWhile (· == 0)
        else ([255, 1] : List Nat).dropWhile (· == 0))
      ∧ (∀ n < 256, intContent (.u8c n) =
          if (beBytes 1 n).dropWhile (· == 0) = [] then [0]
          else if 128 ≤ ((beBytes 1 n).dropWhile (· == 0)).headD 0 then
            0 :: (beBytes 1 n).dropWhile (· == 0)
          else (beBytes 1 n).dropWhile (· == 0))
      ∧ to_fragment (integer (.u8c 0)) = some [0x02, 0x01, 0x00]) :=
  ⟨by decide, c6_unsigned_strip [255, 1] (by decide)⟩

/-- Peeling the most significant digit off the tail: the digit list of
width k+1 is the digit list of the shifted number followed by the low
seven bits. -/
theorem sevenBitDigits_succ (k n : Nat) :
    sevenBitDigits (k + 1) n = sevenBitDigits k (n >>> 7) ++ [n &&& 127] := by
  unfold sevenBitDigits
  rw [List.range_succ, List.map_append, List.map_singleton]
  congr 1
  · refine List.map_congr_left ?_
    intro i hi
    have hik : i < k := List.mem_range.mp hi
    have harith : 7 * (k + 1 - 1 - i) = 7 + 7 * (k - 1 - i) := by omega
    rw [harith, Nat.shiftRight_add]
  · have harith : k + 1 - 1 - k = 0 := by omega
    rw [harith, Nat.mul_zero, Nat.shiftRight_zero]

/-- Decoding one further octet multiplies by the base and adds the
payload. -/
theorem decodeBase7_append_last (l : List Nat) (x : Nat) :
    decodeBase7 (l ++ [x]) = decodeBase7 l * 128 + x % 128 := by
  simp [decodeBase7, List.foldl_append]

/-- The arithmetic core of the round trip: one base-128 digit step. -/
theorem mod_mul_step (n k : Nat) :
    (n >>> 7) % 128 ^ k * 128 + (n &&& 127) % 128 = n % 128 ^ (k + 1) := by
  have h127 : n &&& 127 = n % 128 := by
    have h := Nat.and_pow_two_sub_one_eq_mod n 7
    norm_num at h
    exact h
  have hshift : n >>> 7 = n / 128 := by
    have h := Nat.shiftRight_eq_div_pow n 7
    norm_num at h
    exact h
  rw [h127, hshift, pow_succ, Nat.mul_comm (128 ^ k) 128, Nat.mod_mul]
  generalize n / 128 % 128 ^ k = A
  omega

/-- Decoding the full digit list of width k recovers the number modulo
the k-digit range. -/
theorem decodeBase7_digits (k : Nat) :
    ∀ n, decodeBase7 (sevenBitDigits k n) = n % 128 ^ k := by
  induction k with
  | zero => intro n; simp [sevenBitDigits, decodeBase7, Nat.mod_one]
  | succ k ih =>
      intro n
      rw [sevenBitDigits_succ, decodeBase7_append_last, ih]
      exact mod_mul_step n k

/-- Skipping leading zero digits does not change the decoded value. -/
theorem decodeBase7_dropWhile (l : List Nat) :
    decodeBase7 (l.dropWhile (· == 0)) = decodeBase7 l := by
  induction l with
  | nil => rfl
  | cons h t ih =>
      by_cases h0 : h = 0
      · subst h0
        rw [List.dropWhile_cons_of_pos (by simp), ih]
        simp [decodeBase7]
      · rw [List.dropWhile_cons_of_neg (by simpa using h0)]

/-- Setting the continuation bit leaves the seven payload bits alone. -/
theorem foldl_or128 (l : List Nat) (hl : ∀ b ∈ l, b < 128) :
    ∀ acc, (l.map (· ||| 128)).foldl (fun acc b => acc * 128 + b % 128) acc
      = l.foldl (fun acc b => acc * 128 + b % 128) acc := by
  induction l with
  | nil => intro acc; rfl
  | cons h t ih =>
      intro acc
      have hh : h < 128 := hl h (List.mem_cons_self h t)
      have hor128 : ∀ b < 128, b ||| 128 = b + 128 := by decide
      have hmod : (h ||| 128) % 128 = h % 128 := by
        rw [hor128 h hh]
        omega
      simp only [List.map_cons, List.foldl_cons, hmod]
      exact ih (fun b hb => hl b (List.mem_cons_of_mem h hb)) _

/-- The first 18 of the 19 digits are the 18 digits of the number
shifted by one digit. -/
theorem sevenBitDigits19_take (n : Nat) :
    (sevenBitDigits 19 n).take 18 = sevenBitDigits 18 (n >>> 7) := by
  rw [show (19 : Nat) = 18 + 1 from rfl, sevenBitDigits_succ]
  exact List.take_left' (by simp [sevenBitDigits])

/-- Every stored digit is below 128. -/
theorem sevenBitDigits_lt (k n : Nat) : ∀ b ∈ sevenBitDigits k n, b < 128 := by
  intro b hb
  simp only [sevenBitDigits, List.mem_map, List.mem_range] at hb
  obtain ⟨i, _, rfl⟩ := hb
  exact Nat.lt_succ_of_le Nat.and_le_right

/-- The head surviving dropWhile falsifies the predicate. -/
theorem head_dropWhile_false (p : Nat → Bool) :
    ∀ (l : List Nat) (x : Nat), (l.dropWhile p).head? = some x → p x = false := by
  intro l
  induction l with
  | nil => intro x hx; simp [List.dropWhile] at hx
  | cons h t ih =>
      intro x hx
      by_cases hp : p h
      · rw [List.dropWhile_cons_of_pos hp] at hx
        exact ih x hx
      · rw [List.dropWhile_cons_of_neg hp] at hx
        simp only [List.head?_cons, Option.some.injEq] at hx
        subst hx
        simpa using hp

/-- C7.  The base-128 encoding shared by large tag numbers and OID arcs
emits at least one octet, sets the continuation bit on every octet but
the last, never starts with an all-zero payload group when more than
one octet is emitted, and a conforming decoder recovers the number
exactly. -/
theorem c7_base7_roundtrip (n : Nat) (hn : n < 2 ^ 128) :
    decodeBase7 (assemble_base_7 n) = n
    ∧ assemble_base_7 n ≠ []
    ∧ (∀ b ∈ (assemble_base_7 n).dropLast, 128 ≤ b)
    ∧ (∀ b, (assemble_base_7 n).getLast? = some b → b < 128)
    ∧ (2 ≤ (assemble_base_7 n).length →
        ∀ b, (assemble_base_7 n).head? = some b → b % 128 ≠ 0) := by
  have hor128 : ∀ b < 128, b ||| 128 = b + 128 := by decide
  have hout : assemble_base_7 n =
      (((sevenBitDigits 19 n).take 18).dropWhile (· == 0)).map (· ||| 128)
        ++ [n &&& 127] := rfl
  have hrest_lt : ∀ b ∈ ((sevenBitDigits 19 n).take 18).dropWhile (· == 0),
      b < 128 := by
    intro b hb
    exact sevenBitDigits_lt 19 n b
      (List.take_subset _ _ ((List.dropWhile_sublist _).subset hb))
  refine ⟨?_, ?_, ?_, ?_, ?_⟩
  · rw [hout, decodeBase7_append_last]
    have hmap : decodeBase7
        ((((sevenBitDigits 19 n).take 18).dropWhile (· == 0)).map (· ||| 128))
        = decodeBase7 (((sevenBitDigits 19 n).take 18).dropWhile (· == 0)) :=
      foldl_or128 _ hrest_lt 0
    rw [hmap, decodeBase7_dropWhile, sevenBitDigits19_take,
      decodeBase7_digits, mod_mul_step]
    have hsmall : n < 128 ^ 19 := by
      calc n < 2 ^ 128 := hn
      _ ≤ 128 ^ 19 := by norm_num
    exact Nat.mod_eq_of_lt hsmall
  · rw [hout]
    simp
  · rw [hout, List.dropLast_concat]
    intro b hb
    obtain ⟨d, hd, rfl⟩ := List.mem_map.mp hb
    rw [hor128 d (hrest_lt d hd)]
    omega
  · rw [hout, List.getLast?_concat]
    intro b hb
    obtain rfl : n &&& 127 = b := by simpa using hb
    exact Nat.lt_succ_of_le Nat.and_le_right
  · rw [hout]
    intro hlen b hb
    match hrest : (((sevenBitDigits 19 n).take 18).dropWhile (· == 0)) with
    | [] =>
        rw [hrest] at hlen
        simp at hlen
    | d :: ds =>
        rw [hrest] at hb
        simp only [List.map_cons, List.cons_append, List.head?_cons,
          Option.some.injEq] at hb
        subst hb
        have hd_lt : d < 128 := by
          refine hrest_lt d ?_
          rw [hrest]
          exact List.mem_cons_self d ds
        have hd_ne : d ≠ 0 := by
          have := head_dropWhile_false (· == 0)
            (((sevenBitDigits 19 n).take 18)) d (by rw [hrest]; rfl)
          simpa using this
        rw [hor128 d hd_lt]
        omega

/-- Witness for C7 at n = 624485, a three-octet encoding. -/
theorem c7_base7_roundtrip_witness :
    624485 < 2 ^ 128
    ∧ (decodeBase7 (assemble_base_7 624485) = 624485
      ∧ assemble_base_7 624485 ≠ []
      ∧ (∀ b ∈ (assemble_base_7 624485).dropLast, 128 ≤ b)
      ∧ (∀ b, (assemble_base_7 624485).getLast? = some b → b < 128)
      ∧ (2 ≤ (assemble_base_7 624485).length →
          ∀ b, (assemble_base_7 624485).head? = some b → b % 128 ≠ 0)) :=
  ⟨by norm_num, c7_base7_roundtrip 624485 (by norm_num)⟩

/-- An ASCII whitespace character is not a hex digit. -/
theorem ws_not_digit (c : Char) (h : isAsciiWhitespace c = true) :
    isDigit16 c = false := by
  simp only [isAsciiWhitespace, Bool.or_eq_true, beq_iff_eq] at h
  rcases h with (((h | h) | h) | h) | h <;> subst h <;> decide

/-- The check loop counts the hex digits and fails exactly when some
character is neither whitespace nor a hex digit. -/
theorem hexCount_eq (s : List Char) :
    hexCount s = if s.all (fun c => isAsciiWhitespace c || isDigit16 c)
      then some (s.countP isDigit16) else none := by
  induction s with
  | nil => rfl
  | cons c t ih =>
      by_cases hws : isAsciiWhitespace c
      · have hnd : isDigit16 c = false := ws_not_digit c hws
        simp [hexCount, hws, hnd, List.countP_cons, ih]
      · by_cases hdig : isDigit16 c
        · simp only [hexCount, if_neg hws, if_pos hdig, ih]
          by_cases hall : t.all (fun c => isAsciiWhitespace c || isDigit16 c)
          · simp [hall, List.all_cons, hws, hdig, List.countP_cons]
          · simp [hall, List.all_cons, hws, hdig]
        · simp [hexCount, hws, hdig, List.all_cons]

/-- C8.  Hex-literal validation at construction time: the check succeeds
exactly when every character is ASCII whitespace or a hex digit and the
hex digit count is even; in particular the strings ab1 and zz are
rejected while 0a 1F is accepted and assembles to the bytes 0A 1F. -/
theorem c8_hex_validation :
    (∀ s : List Char, hexCheck s =
      (s.all (fun c => isAsciiWhitespace c || isDigit16 c)
        && (s.countP isDigit16 % 2 == 0)))
    ∧ hexCheck ['a', 'b', '1'] = false
    ∧ hexCheck ['z', 'z'] = false
    ∧ hexCheck ['0', 'a', ' ', '1', 'F'] = true
    ∧ hexAssemble ['0', 'a', ' ', '1', 'F'] = some [0x0A, 0x1F] := by
  refine ⟨?_, by decide, by decide, by decide, by decide⟩
  intro s
  unfold hexCheck
  rw [hexCount_eq]
  by_cases hall : s.all (fun c => isAsciiWhitespace c || isDigit16 c)
  · rw [if_pos hall]
    simp [hall]
  · rw [if_neg hall]
    simp [hall]

/-- Construction-time validity of a recipe tree: hex literals passed
Hex::check, and every oid carries at least two arcs (the condition the
C9 counterexample forces; everything else is unconditionally safe). -/
def wellFormed : RecipeT → Bool
  | .literalR _ => true
  | .hexR s => hexCheck s
  | .emptyR => true
  | .pair2 a b => wellFormed a && wellFormed b
  | .valueR _ _ _ c => wellFormed c
  | .stringValueR _ _ r => wellFormed r
  | .booleanR _ => true
  | .integerR _ => true
  | .integerSliceR _ => true
  | .nullR => true
  | .oidR (_ :: _ :: _) => true
  | .oidR _ => false
  | .utcTimeR _ => true
  | .generalizedTimeR _ => true

/-- The digit values surviving filterMap are counted by the digit
predicate. -/
theorem length_filterMap_toDigit16 (s : List Char) :
    (s.filterMap toDigit16).length = s.countP isDigit16 := by
  induction s with
  | nil => rfl
  | cons c t ih =>
      cases hc : toDigit16 c with
      | none =>
          simp [List.filterMap_cons, hc, List.countP_cons, isDigit16, ih]
      | some v =>
          simp [List.filterMap_cons, hc, List.countP_cons, isDigit16, ih]

/-- The pairing loop succeeds on every even-length digit list. -/
theorem pairBytes_isSome :
    ∀ l : List Nat, l.length % 2 = 0 → (pairBytes l).isSome = true
  | [], _ => rfl
  | [_], h => by simp at h
  | a :: b :: rest, h => by
      have hrest : rest.length % 2 = 0 := by
        simp only [List.length_cons] at h
        omega
      have hr := pairBytes_isSome rest hrest
      rw [pairBytes]
      cases hpb : pairBytes rest with
      | none => rw [hpb] at hr; simp at hr
      | some l => simp

/-- A checked hex literal always assembles. -/
theorem hexAssemble_isSome (s : List Char) (h : hexCheck s = true) :
    (hexAssemble s).isSome = true := by
  unfold hexAssemble
  apply pairBytes_isSome
  rw [length_filterMap_toDigit16]
  unfold hexCheck at h
  rw [hexCount_eq] at h
  by_cases hall : s.all (fun c => isAsciiWhitespace c || isDigit16 c)
  · rw [if_pos hall] at h
    simpa using h
  · rw [if_neg hall] at h
    simp at h

/-- Wrapping preserves definedness: a value node succeeds exactly when
its materialized content does. -/
theorem valueWrap_isSome (cls : ClassT) (num : Nat) (cons : Bool)
    (content : Option (List Nat)) (t : List Nat) :
    (valueWrap cls num cons content t).isSome = content.isSome := by
  cases content <;> simp [valueWrap]

/-- C9 counterexample.  The claim asserts assembly cannot fail or panic
even for an oid with fewer than two arcs; assembling oid([]) hits the
out-of-bounds arc indexing of Oid::assemble_content, modelled as none. -/
theorem c9_oid_empty_panics : to_fragment (oid []) = none := rfl

/-- C9 (amended).  For every recipe tree built from the library
constructors, hex literals validated and the exec escape hatch excluded,
in which every oid node carries at least two arcs, assembly is total:
both Recipe::assemble and DerContent::assemble_content always return a
result, whatever the target fragment already holds. -/
theorem c9_assemble_total (r : RecipeT) :
    ∀ (flag : Bool) (t : List Nat), wellFormed r = true →
      (asmb flag r t).isSome = true := by
  induction r with
  | literalR bs => intro flag t _; simp [asmb]
  | hexR s =>
      intro flag t h
      have hx := hexAssemble_isSome s (by simpa [wellFormed] using h)
      cases hxa : hexAssemble s with
      | none => rw [hxa] at hx; simp at hx
      | some l => simp [asmb, hxa]
  | emptyR => intro flag t _; simp [asmb]
  | pair2 a b iha ihb =>
      intro flag t h
      simp only [wellFormed, Bool.and_eq_true] at h
      simp only [asmb]
      cases ha : asmb false a t with
      | none =>
          have := iha false t h.1
          rw [ha] at this
          simp at this
      | some t1 => simpa using ihb false t1 h.2
  | valueR cls num mode c ih =>
      intro flag t h
      simp only [wellFormed] at h
      cases flag <;>
        (simp only [asmb, valueWrap_isSome]
         cases mode <;> simpa using ih _ [] h)
  | stringValueR cls num r ih =>
      intro flag t h
      simp only [wellFormed] at h
      cases flag
      · simp only [asmb, valueWrap_isSome]
        simpa using ih false [] h
      · simpa [asmb] using ih false t h
  | booleanR oct => intro flag t _; cases flag <;> simp [asmb, valueWrap]
  | integerR c => intro flag t _; cases flag <;> simp [asmb, valueWrap]
  | integerSliceR bs => intro flag t _; cases flag <;> simp [asmb, valueWrap]
  | nullR => intro flag t _; cases flag <;> simp [asmb, valueWrap]
  | oidR arcs =>
      intro flag t h
      match arcs with
      | a0 :: a1 :: rest =>
          cases flag <;> simp [asmb, valueWrap, oidContent]
      | [] => simp [wellFormed] at h
      | [a0] => simp [wellFormed] at h
  | utcTimeR tv => intro flag t _; cases flag <;> simp [asmb, valueWrap]
  | generalizedTimeR tv => intro flag t _; cases flag <;> simp [asmb, valueWrap]

/-- Witness for C9 at a concrete well-formed tree. -/
theorem c9_assemble_total_witness :
    wellFormed (sequence (.pair2 (oid [1, 2, 840]) (boolean true))) = true
    ∧ (asmb false (sequence (.pair2 (oid [1, 2, 840]) (boolean true)))
        []).isSome = true :=
  ⟨by decide,
    c9_assemble_total (sequence (.pair2 (oid [1, 2, 840]) (boolean true)))
      false [] (by decide)⟩

/-- Appending to a longer target only relocates the wrapped value. -/
theorem valueWrap_append (cls : ClassT) (num : Nat) (cons : Bool)
    (content : Option (List Nat)) (t : List Nat) :
    valueWrap cls num cons content t
      = (valueWrap cls num cons content []).map (fun s => t ++ s) := by
  cases content <;> simp [valueWrap]

/-- Assembly only appends: running any recipe against a target holding
some bytes already produces exactly those bytes followed by what the
recipe produces on a fresh fragment.  Proved for Recipe::assemble and
DerContent::assemble_content simultaneously. -/
theorem asmb_append (r : RecipeT) :
    ∀ (flag : Bool) (t : List Nat),
      asmb flag r t = (asmb flag r []).map (fun s => t ++ s) := by
  induction r with
  | literalR bs => intro flag t; simp [asmb]
  | hexR s => intro flag t; cases hx : hexAssemble s <;> simp [asmb, hx]
  | emptyR => intro flag t; simp [asmb]
  | pair2 a b iha ihb =>
      intro flag t
      simp only [asmb]
      rw [iha false t]
      cases ha : asmb false a [] with
      | none => simp
      | some sa =>
          simp only [Option.map_some', Option.some_bind]
          rw [ihb false (t ++ sa), ihb false sa]
          cases asmb false b [] <;> simp [List.append_assoc]
  | valueR cls num mode c ih =>
      intro flag t
      cases flag <;>
        (simp only [asmb]
         rw [valueWrap_append])
  | stringValueR cls num r ih =>
      intro flag t
      cases flag
      · simp only [asmb]
        rw [valueWrap_append]
      · simpa [asmb] using ih false t
  | booleanR oct => intro flag t; cases flag <;> simp [asmb, valueWrap]
  | integerR c => intro flag t; cases flag <;> simp [asmb, valueWrap]
  | integerSliceR bs => intro flag t; cases flag <;> simp [asmb, valueWrap]
  | nullR => intro flag t; cases flag <;> simp [asmb, valueWrap]
  | oidR arcs =>
      intro flag t
      cases flag
      · simp only [asmb]
        rw [valueWrap_append]
      · simp only [asmb]
        cases oidContent arcs <;> simp
  | utcTimeR tv => intro flag t; cases flag <;> simp [asmb, valueWrap]
  | generalizedTimeR tv => intro flag t; cases flag <;> simp [asmb, valueWrap]

/-- C10.  Fragment mutation is append-only, so assembling any recipe
(Value included, via its private scratch fragment) into a fragment with
prior content leaves that content unchanged as a prefix and appends
exactly Recipe::to_fragment of the recipe; the same holds for the
content assembly path. -/
theorem c10_assemble_append_only (r : RecipeT) (f : List Nat) :
    asmb false r f = (to_fragment r).map (fun s => f ++ s)
    ∧ asmb true r f = (asmb true r []).map (fun s => f ++ s) :=
  ⟨asmb_append r false f, asmb_append r true f⟩

end Prototest
